/-
Verification of the finance-dashboard repository against its design
specification.

The repository ships only the React frontend under `src/`; the backend
pipeline the specification describes in §§3-5 (Store, Rate Budget Manager,
Collector, Scheduler, Cache Layer) is Python code that is not part of the
source snapshot.  Those components are therefore modelled from the
specification text itself; each such definition carries a doc comment
starting with "Modelled from the spec:".  The dashboard aggregation and
percentage rendering (claims about `PortfolioOverview` and `Home`) are
translated directly from the TypeScript sources
(`src/unnamed/part_000`, `src/unnamed/part_003`).
-/
import Mathlib

namespace FinDash

/-! ## Store (§3): canonical records and the conditional-write rule -/

/-- Modelled from the spec: a `CanonicalRecord` (§3).  The repository's
Store implementation is not under `src/`.  Domain fields are abstracted
into a single `payload`; `version` is the per-`entity_key` monotonic
counter compared by the Store's conditional write. -/
structure CanonicalRecord where
  entity_type : String
  entity_key : String
  payload : String
  source : String
  collected_at : Nat
  version : Nat
deriving Repr, DecidableEq

/-- Modelled from the spec: the Store's conditional write (§3, §6).
Keyed by `entity_key`; a write whose `version` is lower than or equal to
the version currently stored under the same key is discarded
(`StoreWriteConflict`, §7); otherwise the stored record is replaced in
place.  A record under a fresh key is appended. -/
def upsert : List CanonicalRecord → CanonicalRecord → List CanonicalRecord
  | [], r => [r]
  | q :: s, r =>
    if q.entity_key = r.entity_key then
      if q.version < r.version then r :: s else q :: s
    else
      q :: upsert s r

/-- Modelled from the spec: `get(entity_type, entity_key)` (§6), restricted
to the key lookup the claims need. -/
def storeGet (s : List CanonicalRecord) (k : String) : Option CanonicalRecord :=
  s.find? (fun q => q.entity_key = k)

/-- The version currently stored under a key, if any. -/
def versionOf (s : List CanonicalRecord) (k : String) : Option Nat :=
  (storeGet s k).map (·.version)

/-- The keys of a store, in order. -/
def storeKeys (s : List CanonicalRecord) : List String :=
  s.map (·.entity_key)

/-- A store never holds two records for one `entity_key`. -/
def nodupKeys (s : List CanonicalRecord) : Prop :=
  (storeKeys s).Nodup

/-- Merge an optional stored version with a newly written one. -/
def someMax (o : Option Nat) (v : Nat) : Option Nat :=
  some (max (o.getD 0) v)

/-- How one write affects the version visible under key `k`. -/
def versionStep (k : String) (o : Option Nat) (r : CanonicalRecord) : Option Nat :=
  if r.entity_key = k then someMax o r.version else o

/-! ## Rate Budget Manager (§4.2) -/

/-- Modelled from the spec: `RateBudget` (§3).  The repository's Rate
Budget Manager is not under `src/`.  `window_kind` and rollover are not
needed by the claims about a single window, so one window's state is
`(limit, used)` plus identification fields. -/
structure RateBudget where
  provider_id : String
  limit : Nat
  window_start : Nat
  used : Nat
deriving Repr, DecidableEq

/-- Modelled from the spec: `try_acquire(provider_id, cost)` (§4.2).
Denied when `used + cost > limit` for the current window; on grant,
increments `used`.  Returns `(granted?, new budget)`. -/
def tryAcquire (b : RateBudget) (cost : Nat) : Bool × RateBudget :=
  if b.limit < b.used + cost then
    (false, b)
  else
    (true, { b with used := b.used + cost })

/-- Modelled from the spec: a serialization of concurrent `try_acquire`
callers within one window (the counters are mutated under exclusive
access per provider, §5, so any concurrent execution is some
interleaving).  Returns the total cost granted and the final budget. -/
def runAcquires : RateBudget → List Nat → Nat × RateBudget
  | b, [] => (0, b)
  | b, c :: cs =>
    let r := tryAcquire b c
    let rest := runAcquires r.2 cs
    if r.1 then (c + rest.1, rest.2) else rest

/-! ## Cache Layer (§4.4) -/

/-- Modelled from the spec: `CacheEntry` (§3). -/
structure CacheEntry where
  payload : String
  ttl_expires_at : Nat
  entity_version : Nat
deriving Repr, DecidableEq

/-- An entry is expired at `now` when `now ≥ ttl_expires_at`. -/
def CacheEntry.expiredAt (e : CacheEntry) (now : Nat) : Prop :=
  e.ttl_expires_at ≤ now

/-- A cache slot that will not serve a hit at `now`: empty, or holding an
expired entry. -/
def staleEntry (o : Option CacheEntry) (now : Nat) : Prop :=
  match o with
  | none => True
  | some e => e.ttl_expires_at ≤ now

/-- Insert or replace the entry stored under `k`. -/
def cacheInsert : List (String × CacheEntry) → String → CacheEntry →
    List (String × CacheEntry)
  | [], k, e => [(k, e)]
  | (k0, e0) :: c, k, e =>
    if k0 = k then (k, e) :: c else (k0, e0) :: cacheInsert c k e

/-- Look up the entry stored under `k`. -/
def cacheLookup (c : List (String × CacheEntry)) (k : String) : Option CacheEntry :=
  (c.find? (fun p => p.1 = k)).map (·.2)

/-- Result of one `get_or_populate` call: the returned payload, how many
times `loader()` (a Store read) ran, and the cache afterwards. -/
structure PopulateResult where
  payload : String
  loaderCalls : Nat
  cache : List (String × CacheEntry)
deriving Repr, DecidableEq

/-- Modelled from the spec: `get_or_populate(cache_key, loader, ttl)`
(§4.4).  On a hit with `now < ttl_expires_at`, return the cached payload
without calling `loader`.  On a miss or an expired entry, call `loader()`
once (it returns the payload and the entity version read from the Store),
store the result with `ttl_expires_at = now + ttl`, and return it. -/
def getOrPopulate (c : List (String × CacheEntry)) (k : String)
    (now ttl : Nat) (loader : Unit → String × Nat) : PopulateResult :=
  match cacheLookup c k with
  | some e =>
    if now < e.ttl_expires_at then
      ⟨e.payload, 0, c⟩
    else
      let r := loader ()
      ⟨r.1, 1, cacheInsert c k ⟨r.1, now + ttl, r.2⟩⟩
  | none =>
    let r := loader ()
    ⟨r.1, 1, cacheInsert c k ⟨r.1, now + ttl, r.2⟩⟩

/-! ## Cache coalescing (§4.4 thundering-herd control) -/

/-- Modelled from the spec: the per-key "populate in progress" marker
(§5) for one `cache_key`.  `inflight` is the marker, `waiters` the late
arrivals parked on the in-flight population, `loaderCalls` how many
`loader()` invocations (Store reads) have been issued. -/
structure CoalesceState where
  entry : Option CacheEntry
  inflight : Bool
  waiters : Nat
  loaderCalls : Nat
deriving Repr, DecidableEq

/-- Modelled from the spec: a reader that reaches the miss/expired path.
If a population is already in flight it joins the waiters; otherwise it
sets the marker and issues the single `loader()` call. -/
def missArrive (st : CoalesceState) : CoalesceState :=
  if st.inflight then
    { st with waiters := st.waiters + 1 }
  else
    { st with inflight := true, loaderCalls := st.loaderCalls + 1 }

/-- Modelled from the spec: one concurrent reader arriving at time `now`.
A fresh entry (`now < ttl_expires_at`) is served from cache; a missing or
expired entry takes the coalesced miss path. -/
def readerArrive (now : Nat) (st : CoalesceState) : CoalesceState :=
  match st.entry with
  | some e => if now < e.ttl_expires_at then st else missArrive st
  | none => missArrive st

/-- `n` readers arriving while the population (if any) is still in
flight. -/
def arriveMany (now : Nat) (st : CoalesceState) : Nat → CoalesceState
  | 0 => st
  | n + 1 => arriveMany now (readerArrive now st) n

/-- Modelled from the spec: completion of the in-flight population.  The
loaded payload is cached and handed to every waiter; the marker is
cleared.  Returns the new state and how many parked readers received the
in-flight result. -/
def completeLoad (st : CoalesceState) (now ttl : Nat) (payload : String)
    (ver : Nat) : CoalesceState × Nat :=
  (⟨some ⟨payload, now + ttl, ver⟩, false, 0, st.loaderCalls⟩, st.waiters)

/-! ## Collector (§4.3) -/

/-- Modelled from the spec: the static identity of one Collector domain
(§4.3): the `entity_type` it produces and the `source` it stamps on its
records. -/
structure CollectorConfig where
  entity_type : String
  source : String

/-- Modelled from the spec: the `version` a Collector write carries is
monotonic per `entity_key` (§3): one above the version currently stored,
starting at 1 for a fresh key. -/
def nextVersion (s : List CanonicalRecord) (k : String) : Nat :=
  match versionOf s k with
  | some v => v + 1
  | none => 1

/-- Modelled from the spec: refreshing one target (§4.3): call the
provider, map the raw response through the domain's normalization into a
`CanonicalRecord` stamped with `collected_at := now` and the next
per-key version, and upsert it keyed by the target's `entity_key`. -/
def freshRecord (cfg : CollectorConfig) (normalize : String → String)
    (upstream : String → String) (now : Nat)
    (s : List CanonicalRecord) (t : String) : CanonicalRecord :=
  { entity_type := cfg.entity_type
    entity_key := t
    payload := normalize (upstream t)
    source := cfg.source
    collected_at := now
    version := nextVersion s t }

/-- Modelled from the spec: refreshing one target upserts its freshly
normalized record, keyed by the target's `entity_key` (§4.3). -/
def collectTarget (cfg : CollectorConfig) (normalize : String → String)
    (upstream : String → String) (now : Nat)
    (s : List CanonicalRecord) (t : String) : List CanonicalRecord :=
  upsert s (freshRecord cfg normalize upstream now s t)

/-- Modelled from the spec: `collect(targets)` (§4.3) with every fetch
succeeding and the upstream response a function of the target, folding
the per-target upserts over the store. -/
def collectRun (cfg : CollectorConfig) (normalize : String → String)
    (upstream : String → String) (now : Nat)
    (s : List CanonicalRecord) (targets : List String) : List CanonicalRecord :=
  targets.foldl (collectTarget cfg normalize upstream now) s

/-- The fields of a record other than `collected_at` and `version`. -/
def dropMeta (r : CanonicalRecord) : String × String × String × String :=
  (r.entity_type, r.entity_key, r.payload, r.source)

/-- The store already holds, under target `t`, a record carrying exactly
the domain fields a run of this Collector would write for `t` (only
`collected_at`/`version` may differ). -/
def goodAt (cfg : CollectorConfig) (normalize upstream : String → String)
    (s : List CanonicalRecord) (t : String) : Prop :=
  ∃ q, storeGet s t = some q ∧ q.entity_type = cfg.entity_type ∧
    q.source = cfg.source ∧ q.payload = normalize (upstream t)

/-! ## Collector partial-failure policy (§4.3, §7) -/

/-- Modelled from the spec: the per-target error taxonomy (§7). -/
inductive ProviderError
  | transient
  | rateLimited
  | malformed
deriving Repr, DecidableEq

/-- Modelled from the spec: the per-target outcome a Collector records
(§4.3): either a normalized record ready to upsert, or the error that
made the target fail. -/
inductive FetchOutcome
  | fetched (r : CanonicalRecord)
  | fetchFailed (e : ProviderError)
deriving Repr, DecidableEq

/-- Modelled from the spec: the configurable failed fraction (§4.3) as a
ratio num/den; the job fails when `failed · den > num · total`.  The
default is majority failure. -/
structure FailurePolicy where
  num : Nat
  den : Nat
deriving Repr, DecidableEq

/-- Modelled from the spec: the default policy — job failure on strict
majority failure. -/
def defaultFailurePolicy : FailurePolicy := ⟨1, 2⟩

/-- Modelled from the spec: the overall job outcome, annotated with the
failure count (§4.3). -/
inductive JobOutcome
  | success (failed_count : Nat)
  | failed (failed_count : Nat)
deriving Repr, DecidableEq

/-- Whether a per-target outcome is a failure. -/
def FetchOutcome.isFailure : FetchOutcome → Bool
  | .fetched _ => false
  | .fetchFailed _ => true

/-- The records of the targets that were fetched successfully, in
order. -/
def fetchedRecords : List FetchOutcome → List CanonicalRecord
  | [] => []
  | .fetched r :: outs => r :: fetchedRecords outs
  | .fetchFailed _ :: outs => fetchedRecords outs

/-- Number of failed targets in a batch. -/
def failedCount (outs : List FetchOutcome) : Nat :=
  (outs.filter FetchOutcome.isFailure).length

/-- Modelled from the spec: the overall job status (§4.3): `failed` only
when more than the configured fraction of targets failed, otherwise
`success` with the failure count annotation. -/
def batchStatus (pol : FailurePolicy) (outs : List FetchOutcome) : JobOutcome :=
  if pol.num * outs.length < failedCount outs * pol.den then
    .failed (failedCount outs)
  else
    .success (failedCount outs)

/-- Modelled from the spec: processing a whole batch (§4.3): a failed
target never aborts the batch — every outcome is visited and every
successfully fetched record is upserted. -/
def applyOutcomes (s : List CanonicalRecord) :
    List FetchOutcome → List CanonicalRecord
  | [] => s
  | .fetched r :: outs => applyOutcomes (upsert s r) outs
  | .fetchFailed _ :: outs => applyOutcomes s outs

/-- Modelled from the spec: a Collector run over recorded per-target
outcomes: the updated store and the job outcome. -/
def collectBatch (pol : FailurePolicy) (s : List CanonicalRecord)
    (outs : List FetchOutcome) : List CanonicalRecord × JobOutcome :=
  (applyOutcomes s outs, batchStatus pol outs)

/-! ## Scheduler (§4.1) -/

/-- Modelled from the spec: per-job status in the Scheduler's state
machine (§4.1). -/
inductive JobStatus
  | idle
  | running
  | succeeded
  | failed
deriving Repr, DecidableEq

/-- Modelled from the spec: retry configuration (§4.1): base delay,
maximum delay cap, and maximum retry count. -/
structure BackoffConfig where
  base : Nat
  maxDelay : Nat
  maxRetries : Nat
deriving Repr, DecidableEq

/-- Modelled from the spec: the exponential backoff delay — base delay
times `2 ^ consecutive_failures`, capped at the maximum delay (§4.1). -/
def backoffDelay (cfg : BackoffConfig) (cf : Nat) : Nat :=
  min (cfg.base * 2 ^ cf) cfg.maxDelay

/-- Modelled from the spec: when the next run of a job that just failed
is scheduled (§4.1): an exponential-backoff retry while the retry count
is within the cap, the normal cadence once the cap is exceeded. -/
def nextRetryAt (cfg : BackoffConfig) (cadence finished_at cf : Nat) : Nat :=
  if cf ≤ cfg.maxRetries then
    finished_at + backoffDelay cfg (cf - 1)
  else
    finished_at + cadence

/-- Modelled from the spec: `CollectionJob` (§3), extended with an
explicit count of in-flight runs so that "at most one in-flight run per
Collector" is a statement about the state, not about the shape of a
single status field. -/
structure CollectionJob where
  collector_id : String
  interval : Nat
  next_run_at : Nat
  status : JobStatus
  inflight : Nat
  skipped_overlap : Nat
  consecutive_failures : Nat
deriving Repr, DecidableEq

/-- Modelled from the spec: what `run_due_jobs(now)` does to one job
(§4.1): a due job that is not `running` transitions to `running` (one
more in-flight run); a due job whose previous invocation has not
completed is skipped for this tick — no queuing, no new run — and
recorded as `skipped_overlap`; a job that is not due is untouched. -/
def stepJob (now : Nat) (j : CollectionJob) : CollectionJob :=
  if j.next_run_at ≤ now then
    if j.status = .running then
      { j with skipped_overlap := j.skipped_overlap + 1 }
    else
      { j with status := .running, inflight := j.inflight + 1 }
  else
    j

/-- Modelled from the spec: `run_due_jobs(now)` over the Scheduler's job
registry (§4.1, §9). -/
def runDueJobs (now : Nat) (js : List CollectionJob) : List CollectionJob :=
  js.map (stepJob now)

/-- Modelled from the spec: completion of a successful run (§4.1): the
in-flight run ends, failures reset, next run at the normal cadence. -/
def finishSuccess (now : Nat) (j : CollectionJob) : CollectionJob :=
  { j with status := .succeeded, inflight := j.inflight - 1,
           consecutive_failures := 0, next_run_at := now + j.interval }

/-- Modelled from the spec: completion of a failed run (§4.1): the
in-flight run ends, the failure count grows, the job stays marked
`failed` (the failure is surfaced, not silently dropped), and the next
run is the backoff retry or, past the cap, the normal cadence. -/
def finishFailure (cfg : BackoffConfig) (now : Nat) (j : CollectionJob) :
    CollectionJob :=
  { j with status := .failed, inflight := j.inflight - 1,
           consecutive_failures := j.consecutive_failures + 1,
           next_run_at := nextRetryAt cfg j.interval now (j.consecutive_failures + 1) }

/-- Modelled from the spec: the Scheduler observing the completion of the
run of collector `cid` (§4.1). -/
def completeJob (cfg : BackoffConfig) (now : Nat) (cid : String) (ok : Bool)
    (js : List CollectionJob) : List CollectionJob :=
  js.map fun j =>
    if j.collector_id = cid ∧ j.status = .running then
      if ok then finishSuccess now j else finishFailure cfg now j
    else
      j

/-- Modelled from the spec: one Scheduler transition — a tick of
`run_due_jobs` or a run completion. -/
inductive SchedStep (cfg : BackoffConfig) :
    List CollectionJob → List CollectionJob → Prop
  | tick (now : Nat) (js : List CollectionJob) :
      SchedStep cfg js (runDueJobs now js)
  | complete (now : Nat) (cid : String) (ok : Bool) (js : List CollectionJob) :
      SchedStep cfg js (completeJob cfg now cid ok js)

/-- States the Scheduler can reach from an initial registry. -/
inductive SchedReachable (cfg : BackoffConfig) (init : List CollectionJob) :
    List CollectionJob → Prop
  | refl : SchedReachable cfg init init
  | step {js js' : List CollectionJob} :
      SchedReachable cfg init js → SchedStep cfg js js' →
      SchedReachable cfg init js'

/-- Jobs start idle with no run in flight (§3: created at process start
from static configuration). -/
def initialJobs (js : List CollectionJob) : Prop :=
  ∀ j ∈ js, j.status ≠ .running ∧ j.inflight = 0

/-- The per-job invariant tying the in-flight count to the status. -/
def jobInv (j : CollectionJob) : Prop :=
  j.inflight = if j.status = .running then 1 else 0

/-! ## JavaScript number semantics needed by the dashboard views

JSON (the API transport) only carries finite decimal numbers, but the
claims speak about `NaN`/`Infinity`, so JavaScript numbers are embedded
exactly as finite rationals extended with `NaN`, `Infinity` and
`-Infinity`. -/

/-- A JavaScript number: a finite value (as an exact rational) or one of
the special values. -/
inductive JsNum
  | num (q : Rat)
  | nan
  | inf
  | ninf
deriving Repr, DecidableEq

/-- `Number.isFinite`-style test: true exactly on finite values. -/
def JsNum.isFinite : JsNum → Bool
  | .num _ => true
  | _ => false

/-- JavaScript truthiness for numbers: `0` and `NaN` are falsy. -/
def JsNum.truthy : JsNum → Bool
  | .num q => decide (q ≠ 0)
  | .nan => false
  | .inf => true
  | .ninf => true

/-- JavaScript `<` on numbers: any comparison with `NaN` is false. -/
def JsNum.lt : JsNum → JsNum → Bool
  | .num a, .num b => decide (a < b)
  | .num _, .inf => true
  | .ninf, .num _ => true
  | .ninf, .inf => true
  | _, _ => false

/-- JavaScript `>` on numbers. -/
def JsNum.gt (a b : JsNum) : Bool :=
  JsNum.lt b a

/-- JavaScript `+` on numbers. -/
def JsNum.add : JsNum → JsNum → JsNum
  | .num a, .num b => .num (a + b)
  | .num _, .inf => .inf
  | .num _, .ninf => .ninf
  | .inf, .num _ => .inf
  | .ninf, .num _ => .ninf
  | .inf, .inf => .inf
  | .ninf, .ninf => .ninf
  | .inf, .ninf => .nan
  | .ninf, .inf => .nan
  | .nan, _ => .nan
  | _, .nan => .nan

/-- JavaScript `*` on numbers. -/
def JsNum.mul : JsNum → JsNum → JsNum
  | .num a, .num b => .num (a * b)
  | .num a, .inf => if 0 < a then .inf else if a < 0 then .ninf else .nan
  | .num a, .ninf => if 0 < a then .ninf else if a < 0 then .inf else .nan
  | .inf, .num b => if 0 < b then .inf else if b < 0 then .ninf else .nan
  | .ninf, .num b => if 0 < b then .ninf else if b < 0 then .inf else .nan
  | .inf, .inf => .inf
  | .ninf, .ninf => .inf
  | .inf, .ninf => .ninf
  | .ninf, .inf => .ninf
  | .nan, _ => .nan
  | _, .nan => .nan

/-- JavaScript `/` on numbers (the dividend's zero is always `+0` here,
as produced by JSON data). -/
def JsNum.div : JsNum → JsNum → JsNum
  | .num a, .num b =>
    if b = 0 then (if a = 0 then .nan else if 0 < a then .inf else .ninf)
    else .num (a / b)
  | .num _, .inf => .num 0
  | .num _, .ninf => .num 0
  | .inf, .num b => if b < 0 then .ninf else .inf
  | .ninf, .num b => if b < 0 then .inf else .ninf
  | .inf, .inf => .nan
  | .inf, .ninf => .nan
  | .ninf, .inf => .nan
  | .ninf, .ninf => .nan
  | .nan, _ => .nan
  | _, .nan => .nan

/-- `x || 0` on a possibly-null number field (`part_003` lines 20-23):
null/undefined and falsy numbers (`0`, `NaN`) give `0`. -/
def jsOrZero : Option JsNum → JsNum
  | none => .num 0
  | some v => if v.truthy then v else .num 0

/-- A raw access to a possibly-null number field used in arithmetic or an
ordering test (`part_000` lines 55-56): JavaScript coerces `null` to
`0` there. -/
def jsField : Option JsNum → JsNum
  | none => .num 0
  | some v => v

/-- Round a rational to the nearest integer (halves up):
`⌊q + 1/2⌋`, written with integer floor division so that it evaluates. -/
def ratRound (q : Rat) : Int :=
  Int.fdiv (2 * q.num + q.den) (2 * q.den)

/-- `toFixed`-style rendering of a finite value: the value rounded to
`decimals` fractional digits. -/
def ratToFixed (decimals : Nat) (q : Rat) : String :=
  let scale : Nat := 10 ^ decimals
  let n : Int := ratRound (q * (scale : Rat))
  let m : Nat := n.natAbs
  let intPart : Nat := m / scale
  let fracPart : Nat := m % scale
  let fracDigits : String := toString fracPart
  let fracStr : String :=
    String.mk (List.replicate (decimals - fracDigits.length) (Char.ofNat 48)) ++ fracDigits
  (if n < 0 then "-" else "") ++ toString intPart ++ "." ++ fracStr

/-- `x.toFixed(2)` as interpolated by the views: finite values render as
fixed-point decimals; the special values render as their JavaScript
string forms. -/
def JsNum.toFixed2 : JsNum → String
  | .num q => ratToFixed 2 q
  | .nan => "NaN"
  | .inf => "Infinity"
  | .ninf => "-Infinity"

/-! ## Dashboard views (`src/unnamed/part_000`, `src/unnamed/part_003`) -/

/-- A portfolio as delivered by the API (`usePortfolios`): numeric fields
may be null. -/
structure Portfolio where
  id : String
  name : String
  total_value : Option JsNum
  total_cost : Option JsNum
  total_gain_loss : Option JsNum
  cash_balance : Option JsNum
deriving Repr, DecidableEq

/-- The aggregate summary `Home` builds (`part_003` lines 17-25); its
fields are computed, hence never null. -/
structure PortfolioSummary where
  total_value : JsNum
  total_cost : JsNum
  total_gain_loss : JsNum
  cash_balance : JsNum
deriving Repr, DecidableEq

/-- `part_003` lines 17-25: `portfolios && portfolios.length > 0` guards
the aggregation; each field is the reduce-sum of `p.field || 0` over all
portfolios; otherwise the summary is null. -/
def aggregatePortfolios : Option (List Portfolio) → Option PortfolioSummary
  | none => none
  | some ps =>
    if 0 < ps.length then
      some
        { total_value := ps.foldl (fun acc p => acc.add (jsOrZero p.total_value)) (.num 0)
          total_cost := ps.foldl (fun acc p => acc.add (jsOrZero p.total_cost)) (.num 0)
          total_gain_loss := ps.foldl (fun acc p => acc.add (jsOrZero p.total_gain_loss)) (.num 0)
          cash_balance := ps.foldl (fun acc p => acc.add (jsOrZero p.cash_balance)) (.num 0) }
    else
      none

/-- What `Home` renders at top level (`part_003` lines 59-77 and 153
onwards): the no-portfolio alert when the aggregate is null, the
dashboard view otherwise. -/
inductive HomeView
  | noPortfolios
  | dashboard (summary : PortfolioSummary)
deriving Repr, DecidableEq

/-- `part_003` lines 59-77: `if (!portfolio)` renders the
"No portfolios found" alert; otherwise the dashboard with the aggregate
summary. -/
def renderHome (portfolios : Option (List Portfolio)) : HomeView :=
  match aggregatePortfolios portfolios with
  | none => .noPortfolios
  | some agg => .dashboard agg

/-- `part_000` lines 55-57 (`PortfolioOverview`): the gain/loss change
figure is `((total_gain_loss / total_cost) * 100).toFixed(2)%` under the
guard `total_cost > 0`, and the fallback text otherwise. -/
def overviewGainLossChange (p : Portfolio) : String :=
  if (jsField p.total_cost).gt (.num 0) then
    (((jsField p.total_gain_loss).div (jsField p.total_cost)).mul (.num 100)).toFixed2 ++ "%"
  else
    "0%"

/-- Modelled from the spec: `isValidNumber` from the repository's
`lib/utils/calculations` module, which is not under `src/` (only its
importers are): a value is valid when it is a finite number. -/
def isValidNumber (x : JsNum) : Bool :=
  x.isFinite

/-- Modelled from the spec: `safePercentage(value, total, fallback)` from
`lib/utils/calculations` (not under `src/`): `(value / total) * 100` when
both arguments are valid finite numbers and the denominator is nonzero,
the fallback number otherwise — so it never divides by an invalid or
zero total. -/
def safePercentage (value total : JsNum) (fallback : Rat) : JsNum :=
  if isValidNumber value && isValidNumber total && !(total == JsNum.num 0) then
    (value.div total).mul (.num 100)
  else
    .num fallback

/-- Modelled from the spec: `formatPercentChange(value, fallback)` from
`lib/utils/calculations` (not under `src/`): a valid finite value renders
as a signed fixed-point percentage, anything else as the fallback
text. -/
def formatPercentChange (value : JsNum) (fallback : String) : String :=
  match value with
  | .num q => (if 0 ≤ q then "+" else "") ++ ratToFixed 2 q ++ "%"
  | _ => fallback

/-- `part_003` lines 79-80: the aggregate return percentage and its
formatted text. -/
def homeReturnPercent (agg : PortfolioSummary) : JsNum :=
  safePercentage agg.total_gain_loss agg.total_cost 0

/-- `part_003` line 80: `formatPercentChange(returnPercent, "N/A")`. -/
def homeReturnPercentFormatted (agg : PortfolioSummary) : String :=
  formatPercentChange (homeReturnPercent agg) "N/A"

/-- `part_003` lines 89-97: the guard both percentage slots of the Total
Value card sit behind. -/
def homeCostGuard (agg : PortfolioSummary) : Bool :=
  isValidNumber agg.total_cost && agg.total_cost.gt (.num 0)

/-- `part_003` lines 95-97: the Total Value card's percentage slot — the
formatted return under the guard, the empty string otherwise. -/
def homeTotalValuePercent (agg : PortfolioSummary) : String :=
  if homeCostGuard agg then homeReturnPercentFormatted agg else ""

/-- `part_003` lines 107-109: the Total Return card's change slot — the
formatted return under the guard, the "N/A" fallback otherwise. -/
def homeTotalReturnChange (agg : PortfolioSummary) : String :=
  if homeCostGuard agg then homeReturnPercentFormatted agg else "N/A"

/-- The finite rational a present-and-finite field carries, `0` for a
null or missing one (how the claims read a summed field). -/
def ratOrZero : Option JsNum → Rat
  | some (.num q) => q
  | some .nan => 0
  | some .inf => 0
  | some .ninf => 0
  | none => 0

/-- A field is JSON-representable data: absent/null or a finite
number.  (JSON, the API transport, cannot carry `NaN` or `Infinity`.) -/
def finiteOrNull : Option JsNum → Bool
  | none => true
  | some v => v.isFinite

/-- All four numeric fields of a portfolio are JSON-representable. -/
def portfolioFinite (p : Portfolio) : Bool :=
  finiteOrNull p.total_value && finiteOrNull p.total_cost &&
    finiteOrNull p.total_gain_loss && finiteOrNull p.cash_balance

/-- The claim's reading of the aggregation: component-wise sums of the
four numeric fields, a missing or null field contributing 0. -/
def componentSums (ps : List Portfolio) : PortfolioSummary :=
  { total_value := .num ((ps.map fun p => ratOrZero p.total_value).sum)
    total_cost := .num ((ps.map fun p => ratOrZero p.total_cost).sum)
    total_gain_loss := .num ((ps.map fun p => ratOrZero p.total_gain_loss).sum)
    cash_balance := .num ((ps.map fun p => ratOrZero p.cash_balance).sum) }

/-! ## Witness fixtures -/

/-- Scenario record (§8): version 6, written by the fast run B. -/
def recB : CanonicalRecord :=
  ⟨"stock_price", "AAPL", "payloadB", "provider", 6, 6⟩

/-- Scenario record (§8): version 5, delivered late by the slow run A. -/
def recA : CanonicalRecord :=
  ⟨"stock_price", "AAPL", "payloadA", "provider", 10, 5⟩

/-- A concrete API portfolio with all fields present and finite. -/
def overviewSample : Portfolio :=
  ⟨"1", "Main", some (.num 1000), some (.num 200), some (.num 50), some (.num 10)⟩

/-- A concrete aggregate summary whose cost is zero, forcing the
fallback path. -/
def homeSample : PortfolioSummary :=
  ⟨.num 1000, .num 0, .num 50, .num 10⟩

/-- A concrete API portfolio with a null `total_gain_loss`. -/
def aggSampleA : Portfolio :=
  ⟨"1", "A", some (.num 100), some (.num 80), none, some (.num 5)⟩

/-- A concrete API portfolio with a null `total_cost`. -/
def aggSampleB : Portfolio :=
  ⟨"2", "B", some (.num 50), none, some (.num 7), some (.num 0)⟩

/-! # Theorems -/

/-! ### Store conditional write (C1) -/

theorem storeGet_cons_pos {a : CanonicalRecord} {s : List CanonicalRecord}
    {k : String} (h : a.entity_key = k) : storeGet (a :: s) k = some a := by
  unfold storeGet
  rw [List.find?_cons_of_pos]
  simpa using h

theorem storeGet_cons_neg {a : CanonicalRecord} {s : List CanonicalRecord}
    {k : String} (h : ¬ a.entity_key = k) :
    storeGet (a :: s) k = storeGet s k := by
  unfold storeGet
  rw [List.find?_cons_of_neg]
  simpa using h

theorem upsert_stale {s : List CanonicalRecord} {r q : CanonicalRecord}
    (hq : storeGet s r.entity_key = some q) (hv : r.version ≤ q.version) :
    upsert s r = s := by
  induction s with
  | nil => simp [storeGet] at hq
  | cons a s ih =>
    by_cases hk : a.entity_key = r.entity_key
    · have ha : storeGet (a :: s) r.entity_key = some a := storeGet_cons_pos hk
      rw [hq] at ha
      have hqa : q = a := by injection ha
      subst hqa
      simp only [upsert, if_pos hk]
      rw [if_neg (by omega)]
    · have ha : storeGet (a :: s) r.entity_key = storeGet s r.entity_key :=
        storeGet_cons_neg hk
      rw [ha] at hq
      simp only [upsert, if_neg hk]
      rw [ih hq]

theorem storeGet_upsert (s : List CanonicalRecord) (r : CanonicalRecord)
    (k : String) :
    storeGet (upsert s r) k =
      if r.entity_key = k then
        match storeGet s k with
        | none => some r
        | some q => if q.version < r.version then some r else some q
      else storeGet s k := by
  induction s with
  | nil =>
    by_cases hk : r.entity_key = k
    · simp [upsert, storeGet_cons_pos hk, hk, storeGet]
    · simp [upsert, storeGet_cons_neg hk, hk, storeGet]
  | cons a s ih =>
    by_cases hak : a.entity_key = r.entity_key
    · by_cases hv : a.version < r.version
      · simp only [upsert, if_pos hak, if_pos hv]
        by_cases hk : r.entity_key = k
        · rw [storeGet_cons_pos hk, if_pos hk, storeGet_cons_pos (hak.trans hk)]
          simp [hv]
        · rw [storeGet_cons_neg hk, if_neg hk,
            storeGet_cons_neg (fun h => hk (hak ▸ h))]
      · simp only [upsert, if_pos hak, if_neg hv]
        by_cases hk : r.entity_key = k
        · rw [if_pos hk, storeGet_cons_pos (hak.trans hk)]
          simp [hv]
        · rw [if_neg hk]
    · simp only [upsert, if_neg hak]
      by_cases hk : a.entity_key = k
      · have hrk : ¬ r.entity_key = k := fun h => hak (hk.trans h.symm)
        rw [storeGet_cons_pos hk, if_neg hrk, storeGet_cons_pos hk]
      · rw [storeGet_cons_neg hk, storeGet_cons_neg hk, ih]

theorem versionOf_upsert (s : List CanonicalRecord) (r : CanonicalRecord)
    (k : String) :
    versionOf (upsert s r) k = versionStep k (versionOf s k) r := by
  unfold versionOf versionStep someMax
  rw [storeGet_upsert]
  by_cases hk : r.entity_key = k
  · rw [if_pos hk, if_pos hk]
    cases hq : storeGet s k with
    | none => simp
    | some q =>
      by_cases hv : q.version < r.version
      · simp [hv]
        omega
      · simp [hv]
        omega
  · rw [if_neg hk, if_neg hk]

theorem versionOf_foldl (s : List CanonicalRecord) (rs : List CanonicalRecord)
    (k : String) :
    versionOf (rs.foldl upsert s) k = rs.foldl (versionStep k) (versionOf s k) := by
  induction rs generalizing s with
  | nil => rfl
  | cons r rs ih =>
    simp only [List.foldl_cons]
    rw [ih, versionOf_upsert]

theorem versionStep_comm (k : String) (o : Option Nat)
    (r1 r2 : CanonicalRecord) :
    versionStep k (versionStep k o r1) r2 = versionStep k (versionStep k o r2) r1 := by
  unfold versionStep someMax
  by_cases h1 : r1.entity_key = k <;> by_cases h2 : r2.entity_key = k <;>
    simp [h1, h2]
  omega

theorem foldl_versionStep_perm (k : String) {rs rs' : List CanonicalRecord}
    (h : rs.Perm rs') :
    ∀ o, rs.foldl (versionStep k) o = rs'.foldl (versionStep k) o := by
  induction h with
  | nil => intro o; rfl
  | cons x _ ih =>
    intro o
    simp only [List.foldl_cons]
    exact ih _
  | swap x y l =>
    intro o
    simp only [List.foldl_cons]
    rw [versionStep_comm]
  | trans _ _ ih1 ih2 =>
    intro o
    rw [ih1, ih2]

theorem le_foldl_versionStep (k : String) (rs : List CanonicalRecord) :
    ∀ o w, o = some w → ∃ u, rs.foldl (versionStep k) o = some u ∧ w ≤ u := by
  induction rs with
  | nil =>
    intro o w h
    exact ⟨w, h, Nat.le_refl w⟩
  | cons r rs ih =>
    intro o w h
    subst h
    by_cases hk : r.entity_key = k
    · obtain ⟨u, hu, hle⟩ :=
        ih (versionStep k (some w) r) (max w r.version)
          (by simp [versionStep, hk, someMax])
      exact ⟨u, by simpa using hu, Nat.le_trans (Nat.le_max_left _ _) hle⟩
    · obtain ⟨u, hu, hle⟩ := ih (versionStep k (some w) r) w
        (by simp [versionStep, hk])
      exact ⟨u, by simpa using hu, hle⟩

theorem mem_foldl_versionStep (k : String) {r : CanonicalRecord}
    (hk : r.entity_key = k) {rs : List CanonicalRecord} :
    ∀ o, r ∈ rs → ∃ u, rs.foldl (versionStep k) o = some u ∧ r.version ≤ u := by
  induction rs with
  | nil =>
    intro o hr
    cases hr
  | cons a rs ih =>
    intro o hr
    rcases List.mem_cons.mp hr with h | h
    · subst h
      obtain ⟨u, hu, hle⟩ :=
        le_foldl_versionStep k rs (versionStep k o r) (max (o.getD 0) r.version)
          (by simp [versionStep, hk, someMax])
      exact ⟨u, by simpa using hu,
        Nat.le_trans (Nat.le_max_right _ _) hle⟩
    · obtain ⟨u, hu, hle⟩ := ih (versionStep k o a) h
      exact ⟨u, by simpa using hu, hle⟩

/-- C1: the Store keeps, per `entity_key`, the record with the highest
version written so far: an upsert carrying a version lower than or equal
to the stored one leaves the store unchanged; the version visible after a
batch of writes does not depend on the order the writes complete in; and
after any sequence of writes every written record's version is bounded by
the version stored under its key. -/
theorem C1_store_last_writer_wins_by_version :
    (∀ (s : List CanonicalRecord) (r q : CanonicalRecord),
        storeGet s r.entity_key = some q → r.version ≤ q.version →
        upsert s r = s) ∧
    (∀ (s : List CanonicalRecord) (rs rs' : List CanonicalRecord) (k : String),
        rs.Perm rs' →
        versionOf (rs.foldl upsert s) k = versionOf (rs'.foldl upsert s) k) ∧
    (∀ (s : List CanonicalRecord) (rs : List CanonicalRecord)
        (r : CanonicalRecord), r ∈ rs →
        ∃ q, storeGet (rs.foldl upsert s) r.entity_key = some q ∧
          r.version ≤ q.version) := by
  refine ⟨fun s r q hq hv => upsert_stale hq hv, ?_, ?_⟩
  · intro s rs rs' k h
    rw [versionOf_foldl, versionOf_foldl, foldl_versionStep_perm k h]
  · intro s rs r hr
    obtain ⟨u, hu, hle⟩ :=
      mem_foldl_versionStep r.entity_key rfl (versionOf s r.entity_key) hr
    rw [← versionOf_foldl] at hu
    unfold versionOf at hu
    cases hq : storeGet (rs.foldl upsert s) r.entity_key with
    | none => rw [hq] at hu; cases hu
    | some q =>
      rw [hq] at hu
      refine ⟨q, rfl, ?_⟩
      have : q.version = u := by simpa using hu
      omega

/-- C1 witness: the §8 scenario.  Run B's version-6 record is stored; run
A's version-5 record arriving later is discarded; the two completion
orders agree on the stored version; and B's version bounds the final
stored version. -/
theorem C1_store_last_writer_wins_by_version_witness :
    upsert [recB] recA = [recB] ∧
    versionOf ([recB, recA].foldl upsert []) "AAPL" =
      versionOf ([recA, recB].foldl upsert []) "AAPL" ∧
    (∃ q, storeGet ([recB, recA].foldl upsert []) recB.entity_key = some q ∧
      recB.version ≤ q.version) :=
  ⟨C1_store_last_writer_wins_by_version.1 [recB] recA recB (by decide) (by decide),
   C1_store_last_writer_wins_by_version.2.1 [] [recB, recA] [recA, recB] "AAPL"
     (by decide),
   C1_store_last_writer_wins_by_version.2.2 [] [recB, recA] recB (by decide)⟩

/-! ### Rate Budget Manager (C2) -/

theorem runAcquires_closed (costs : List Nat) :
    ∀ b : RateBudget, b.used ≤ b.limit →
      (runAcquires b costs).2.used ≤ b.limit ∧
      (runAcquires b costs).2.limit = b.limit ∧
      (runAcquires b costs).1 + b.used = (runAcquires b costs).2.used := by
  induction costs with
  | nil =>
    intro b h
    exact ⟨h, rfl, by simp [runAcquires]⟩
  | cons c cs ih =>
    intro b h
    by_cases hg : b.limit < b.used + c
    · have hr : runAcquires b (c :: cs) = runAcquires b cs := by
        simp [runAcquires, tryAcquire, hg]
      rw [hr]
      exact ih b h
    · have h2 : b.used + c ≤ b.limit := Nat.le_of_not_lt hg
      obtain ⟨hle, hlim, hsum⟩ := ih { b with used := b.used + c } h2
      have hr : runAcquires b (c :: cs) =
          (c + (runAcquires { b with used := b.used + c } cs).1,
           (runAcquires { b with used := b.used + c } cs).2) := by
        simp [runAcquires, tryAcquire, hg]
      rw [hr]
      exact ⟨hle, hlim, by simp at hsum ⊢; omega⟩

/-- C2: `try_acquire` denies exactly when `used + cost > limit` for the
current window, increments `used` by `cost` on every grant, and the total
cost granted within one window — under any serialization of concurrent
callers, the counters being mutated under exclusive access — never
exceeds `limit`. -/
theorem C2_rate_budget_never_exceeds_limit :
    (∀ (b : RateBudget) (cost : Nat),
        (tryAcquire b cost).1 = false ↔ b.limit < b.used + cost) ∧
    (∀ (b : RateBudget) (cost : Nat), (tryAcquire b cost).1 = true →
        (tryAcquire b cost).2.used = b.used + cost) ∧
    (∀ (b : RateBudget) (costs : List Nat), b.used ≤ b.limit →
        (runAcquires b costs).2.used ≤ b.limit) ∧
    (∀ (b : RateBudget) (costs : List Nat), b.used = 0 →
        (runAcquires b costs).1 ≤ b.limit) := by
  refine ⟨?_, ?_, ?_, ?_⟩
  · intro b cost
    by_cases hg : b.limit < b.used + cost <;> simp [tryAcquire, hg]
  · intro b cost h
    by_cases hg : b.limit < b.used + cost
    · simp [tryAcquire, hg] at h
    · simp [tryAcquire, hg]
  · intro b costs h
    exact (runAcquires_closed costs b h).1
  · intro b costs h
    obtain ⟨hle, _, hsum⟩ := runAcquires_closed costs b (by omega)
    omega

/-- C2 witness: the §8 scenario — limit 25, 25 already used: the next
`try_acquire` is denied; a grant on a fresh window increments `used`; and
three unit costs against a limit of 2 grant at most 2 in total. -/
theorem C2_rate_budget_never_exceeds_limit_witness :
    ((tryAcquire ⟨"alpha_vantage", 25, 0, 25⟩ 1).1 = false ↔
      (25 : Nat) < 25 + 1) ∧
    ((tryAcquire ⟨"alpha_vantage", 25, 0, 0⟩ 1).1 = true →
      (tryAcquire ⟨"alpha_vantage", 25, 0, 0⟩ 1).2.used = 0 + 1) ∧
    (runAcquires ⟨"reddit", 2, 0, 0⟩ [1, 1, 1]).2.used ≤ 2 ∧
    (runAcquires ⟨"reddit", 2, 0, 0⟩ [1, 1, 1]).1 ≤ 2 :=
  ⟨C2_rate_budget_never_exceeds_limit.1 ⟨"alpha_vantage", 25, 0, 25⟩ 1,
   C2_rate_budget_never_exceeds_limit.2.1 ⟨"alpha_vantage", 25, 0, 0⟩ 1,
   C2_rate_budget_never_exceeds_limit.2.2.1 ⟨"reddit", 2, 0, 0⟩ [1, 1, 1]
     (by decide),
   C2_rate_budget_never_exceeds_limit.2.2.2 ⟨"reddit", 2, 0, 0⟩ [1, 1, 1]
     (by decide)⟩

/-! ### Cache read-through behaviour (C4) -/

theorem cacheLookup_cacheInsert (c : List (String × CacheEntry)) (k : String)
    (e : CacheEntry) : cacheLookup (cacheInsert c k e) k = some e := by
  induction c with
  | nil =>
    simp [cacheInsert, cacheLookup, List.find?]
  | cons p c ih =>
    by_cases h : p.1 = k
    · simp only [cacheInsert, if_pos h]
      simp [cacheLookup, List.find?]
    · simp only [cacheInsert, if_neg h]
      unfold cacheLookup
      rw [List.find?_cons_of_neg]
      · exact ih
      · simpa using h

/-- C4: `get_or_populate` serves a present, unexpired entry from the
cache with no `loader()` (Store read) call and no cache change; on a miss
or an expired entry it calls `loader()` exactly once, stores the result
under `ttl_expires_at = now + ttl`, and returns that result. -/
theorem C4_cache_hit_purity_and_populate :
    (∀ (c : List (String × CacheEntry)) (k : String) (now ttl : Nat)
        (loader : Unit → String × Nat) (e : CacheEntry),
        cacheLookup c k = some e → now < e.ttl_expires_at →
        getOrPopulate c k now ttl loader = ⟨e.payload, 0, c⟩) ∧
    (∀ (c : List (String × CacheEntry)) (k : String) (now ttl : Nat)
        (loader : Unit → String × Nat),
        (cacheLookup c k = none ∨
          ∃ e, cacheLookup c k = some e ∧ e.expiredAt now) →
        getOrPopulate c k now ttl loader =
          ⟨(loader ()).1, 1,
            cacheInsert c k ⟨(loader ()).1, now + ttl, (loader ()).2⟩⟩ ∧
        cacheLookup (getOrPopulate c k now ttl loader).cache k =
          some ⟨(loader ()).1, now + ttl, (loader ()).2⟩) := by
  constructor
  · intro c k now ttl loader e he hfresh
    simp [getOrPopulate, he, hfresh]
  · intro c k now ttl loader hmiss
    have hpop : getOrPopulate c k now ttl loader =
        ⟨(loader ()).1, 1,
          cacheInsert c k ⟨(loader ()).1, now + ttl, (loader ()).2⟩⟩ := by
      rcases hmiss with hnone | ⟨e, he, hexp⟩
      · simp [getOrPopulate, hnone]
      · have : ¬ now < e.ttl_expires_at := by
          unfold CacheEntry.expiredAt at hexp
          omega
        simp [getOrPopulate, he, this]
    refine ⟨hpop, ?_⟩
    rw [hpop]
    exact cacheLookup_cacheInsert c k _

/-- C4 witness: a fresh entry for "AAPL" is served from cache without a
Store read; the expired entry triggers one `loader()` call and is
restored with `ttl_expires_at = now + ttl`. -/
theorem C4_cache_hit_purity_and_populate_witness :
    (getOrPopulate [("AAPL", ⟨"cached", 100, 3⟩)] "AAPL" 40 60
        (fun _ => ("fromStore", 4)) = ⟨"cached", 0, [("AAPL", ⟨"cached", 100, 3⟩)]⟩) ∧
    (getOrPopulate [("AAPL", ⟨"cached", 100, 3⟩)] "AAPL" 100 60
        (fun _ => ("fromStore", 4)) =
      ⟨"fromStore", 1,
        cacheInsert [("AAPL", ⟨"cached", 100, 3⟩)] "AAPL" ⟨"fromStore", 100 + 60, 4⟩⟩) :=
  ⟨C4_cache_hit_purity_and_populate.1 [("AAPL", ⟨"cached", 100, 3⟩)] "AAPL" 40 60
      (fun _ => ("fromStore", 4)) ⟨"cached", 100, 3⟩ (by decide) (by decide),
   (C4_cache_hit_purity_and_populate.2 [("AAPL", ⟨"cached", 100, 3⟩)] "AAPL" 100 60
      (fun _ => ("fromStore", 4))
      (Or.inr ⟨⟨"cached", 100, 3⟩, by decide, by simp [CacheEntry.expiredAt]⟩)).1⟩

/-! ### Cache coalescing (C3) -/

theorem arriveMany_joined (now : Nat) :
    ∀ (n : Nat) (st : CoalesceState), staleEntry st.entry now →
      st.inflight = true →
      arriveMany now st n =
        { st with waiters := st.waiters + n } := by
  intro n
  induction n with
  | zero =>
    intro st _ _
    simp [arriveMany]
  | succ m ih =>
    intro st hstale hin
    have hstep : readerArrive now st = { st with waiters := st.waiters + 1 } := by
      cases he : st.entry with
      | none => simp [readerArrive, he, missArrive, hin]
      | some e =>
        have : ¬ now < e.ttl_expires_at := by
          unfold staleEntry at hstale
          rw [he] at hstale
          omega
        simp [readerArrive, he, this, missArrive, hin]
    show arriveMany now (readerArrive now st) m = _
    rw [hstep, ih { st with waiters := st.waiters + 1 }
      (by simpa [staleEntry] using hstale) hin]
    simp
    omega

/-- C3: when `n ≥ 1` readers concurrently miss (or hit an expired entry)
on one `cache_key`, the first sets the populate-in-progress marker and
issues the single `loader()` call; the other `n - 1` join the in-flight
population; completion hands the loaded payload to all of them and caches
it — so exactly one Store read happens. -/
theorem C3_thundering_herd_single_loader :
    ∀ (st : CoalesceState) (now n ttl : Nat) (payload : String) (ver : Nat),
      staleEntry st.entry now → st.inflight = false → st.waiters = 0 →
      st.loaderCalls = 0 → 1 ≤ n →
      (arriveMany now st n).loaderCalls = 1 ∧
      (arriveMany now st n).inflight = true ∧
      (arriveMany now st n).waiters = n - 1 ∧
      (completeLoad (arriveMany now st n) now ttl payload ver).2 = n - 1 ∧
      (completeLoad (arriveMany now st n) now ttl payload ver).1.entry =
        some ⟨payload, now + ttl, ver⟩ := by
  intro st now n ttl payload ver hstale hin hw hl hn
  obtain ⟨m, rfl⟩ : ∃ m, n = m + 1 := ⟨n - 1, by omega⟩
  have hstep : readerArrive now st =
      { st with inflight := true, loaderCalls := st.loaderCalls + 1 } := by
    cases he : st.entry with
    | none => simp [readerArrive, he, missArrive, hin]
    | some e =>
      have : ¬ now < e.ttl_expires_at := by
        unfold staleEntry at hstale
        rw [he] at hstale
        omega
      simp [readerArrive, he, this, missArrive, hin]
  have hall : arriveMany now st (m + 1) =
      { st with inflight := true, loaderCalls := st.loaderCalls + 1,
                waiters := st.waiters + m } := by
    show arriveMany now (readerArrive now st) m = _
    rw [hstep, arriveMany_joined now m _ (by simpa [staleEntry] using hstale) rfl]
  rw [hall]
  simp [completeLoad, hw, hl]

/-- C3 witness: three readers hitting an expired entry at `now = 100`
issue one loader call, park two waiters, and completion hands the loaded
result to both of them and caches it. -/
theorem C3_thundering_herd_single_loader_witness :
    (arriveMany 100 ⟨some ⟨"old", 90, 1⟩, false, 0, 0⟩ 3).loaderCalls = 1 ∧
    (arriveMany 100 ⟨some ⟨"old", 90, 1⟩, false, 0, 0⟩ 3).inflight = true ∧
    (arriveMany 100 ⟨some ⟨"old", 90, 1⟩, false, 0, 0⟩ 3).waiters = 3 - 1 ∧
    (completeLoad (arriveMany 100 ⟨some ⟨"old", 90, 1⟩, false, 0, 0⟩ 3)
        100 60 "new" 2).2 = 3 - 1 ∧
    (completeLoad (arriveMany 100 ⟨some ⟨"old", 90, 1⟩, false, 0, 0⟩ 3)
        100 60 "new" 2).1.entry = some ⟨"new", 100 + 60, 2⟩ :=
  C3_thundering_herd_single_loader ⟨some ⟨"old", 90, 1⟩, false, 0, 0⟩ 100 3 60
    "new" 2 (by simp [staleEntry]) rfl rfl rfl (by decide)

/-! ### Collector partial-failure policy (C6) -/

theorem foldl_upsert_version_ge (s rs : List CanonicalRecord)
    (r : CanonicalRecord) (hr : r ∈ rs) :
    ∃ q, storeGet (rs.foldl upsert s) r.entity_key = some q ∧
      r.version ≤ q.version := by
  obtain ⟨u, hu, hle⟩ :=
    mem_foldl_versionStep r.entity_key rfl (versionOf s r.entity_key) hr
  rw [← versionOf_foldl] at hu
  unfold versionOf at hu
  cases hq : storeGet (rs.foldl upsert s) r.entity_key with
  | none => rw [hq] at hu; cases hu
  | some q =>
    rw [hq] at hu
    refine ⟨q, rfl, ?_⟩
    have : q.version = u := by simpa using hu
    omega

theorem applyOutcomes_eq_foldl (outs : List FetchOutcome) :
    ∀ s, applyOutcomes s outs = (fetchedRecords outs).foldl upsert s := by
  induction outs with
  | nil => intro s; rfl
  | cons o outs ih =>
    intro s
    cases o with
    | fetched r => simp [applyOutcomes, fetchedRecords, ih]
    | fetchFailed e => simp [applyOutcomes, fetchedRecords, ih]

theorem mem_fetchedRecords {r : CanonicalRecord} {outs : List FetchOutcome}
    (h : FetchOutcome.fetched r ∈ outs) : r ∈ fetchedRecords outs := by
  induction outs with
  | nil => cases h
  | cons o outs ih =>
    rcases List.mem_cons.mp h with h0 | h0
    · rw [← h0]
      simp [fetchedRecords]
    · cases o with
      | fetched r2 => simp [fetchedRecords, ih h0]
      | fetchFailed e => simpa [fetchedRecords] using ih h0

/-- C6: a failed target never aborts the batch — the store update is the
fold of the upserts of exactly the successfully fetched records, and every
such record ends up reflected in the store under its key; the job outcome
is `failed` iff more than the configured fraction of targets failed
(default policy: strict majority), otherwise `success` annotated with the
failure count. -/
theorem C6_collector_partial_failure_policy :
    ∀ (pol : FailurePolicy) (s : List CanonicalRecord)
      (outs : List FetchOutcome),
      (collectBatch pol s outs).1 = (fetchedRecords outs).foldl upsert s ∧
      ((collectBatch pol s outs).2 = .failed (failedCount outs) ↔
        pol.num * outs.length < failedCount outs * pol.den) ∧
      (¬ pol.num * outs.length < failedCount outs * pol.den →
        (collectBatch pol s outs).2 = .success (failedCount outs)) ∧
      (∀ r, FetchOutcome.fetched r ∈ outs →
        ∃ q, storeGet (collectBatch pol s outs).1 r.entity_key = some q ∧
          r.version ≤ q.version) := by
  intro pol s outs
  refine ⟨applyOutcomes_eq_foldl outs s, ?_, ?_, ?_⟩
  · unfold collectBatch batchStatus
    by_cases h : pol.num * outs.length < failedCount outs * pol.den <;> simp [h]
  · intro h
    unfold collectBatch batchStatus
    simp [h]
  · intro r hr
    rw [show (collectBatch pol s outs).1 = (fetchedRecords outs).foldl upsert s
      from applyOutcomes_eq_foldl outs s]
    exact foldl_upsert_version_ge s (fetchedRecords outs) r (mem_fetchedRecords hr)

/-- C6 witness: the §8 scenario — ten targets, three transient failures,
default majority policy: the batch is not aborted, all seven fetched
records are folded into the store, and the job reports `success` with
`failed_count = 3`. -/
theorem C6_collector_partial_failure_policy_witness :
    (collectBatch defaultFailurePolicy []
        [.fetched ⟨"q", "T1", "p", "s", 1, 1⟩,
         .fetchFailed .transient,
         .fetched ⟨"q", "T2", "p", "s", 1, 1⟩,
         .fetched ⟨"q", "T3", "p", "s", 1, 1⟩,
         .fetchFailed .transient,
         .fetched ⟨"q", "T4", "p", "s", 1, 1⟩,
         .fetched ⟨"q", "T5", "p", "s", 1, 1⟩,
         .fetchFailed .transient,
         .fetched ⟨"q", "T6", "p", "s", 1, 1⟩,
         .fetched ⟨"q", "T7", "p", "s", 1, 1⟩]).2 =
      .success 3 := by
  have h :=
    (C6_collector_partial_failure_policy defaultFailurePolicy []
      [.fetched ⟨"q", "T1", "p", "s", 1, 1⟩,
       .fetchFailed .transient,
       .fetched ⟨"q", "T2", "p", "s", 1, 1⟩,
       .fetched ⟨"q", "T3", "p", "s", 1, 1⟩,
       .fetchFailed .transient,
       .fetched ⟨"q", "T4", "p", "s", 1, 1⟩,
       .fetched ⟨"q", "T5", "p", "s", 1, 1⟩,
       .fetchFailed .transient,
       .fetched ⟨"q", "T6", "p", "s", 1, 1⟩,
       .fetched ⟨"q", "T7", "p", "s", 1, 1⟩]).2.2.1
  rw [h (by decide)]
  norm_num [failedCount, FetchOutcome.isFailure]

/-! ### Scheduler overlap policy (C7) -/

theorem jobInv_stepJob (now : Nat) (j : CollectionJob) (h : jobInv j) :
    jobInv (stepJob now j) := by
  unfold jobInv at *
  unfold stepJob
  by_cases hdue : j.next_run_at ≤ now
  · by_cases hrun : j.status = JobStatus.running
    · simp [hdue, hrun] at h ⊢
      exact h
    · simp [hdue, hrun] at h ⊢
      omega
  · simpa [hdue] using h

theorem jobInv_finishSuccess (now : Nat) (j : CollectionJob) (h : jobInv j)
    (hrun : j.status = JobStatus.running) : jobInv (finishSuccess now j) := by
  unfold jobInv at *
  simp [finishSuccess, hrun] at h ⊢
  omega

theorem jobInv_finishFailure (cfg : BackoffConfig) (now : Nat)
    (j : CollectionJob) (h : jobInv j) (hrun : j.status = JobStatus.running) :
    jobInv (finishFailure cfg now j) := by
  unfold jobInv at *
  simp [finishFailure, hrun] at h ⊢
  omega

theorem reachable_jobInv (cfg : BackoffConfig) (init : List CollectionJob)
    (hinit : initialJobs init) :
    ∀ js, SchedReachable cfg init js → ∀ j ∈ js, jobInv j := by
  intro js hreach
  induction hreach with
  | refl =>
    intro j hj
    obtain ⟨hstat, hinf⟩ := hinit j hj
    unfold jobInv
    simp [hstat, hinf]
  | step hprev hstep ih =>
    cases hstep with
    | tick now js =>
      intro j hj
      obtain ⟨j0, hj0, rfl⟩ := List.mem_map.mp hj
      exact jobInv_stepJob now j0 (ih j0 hj0)
    | complete now cid ok js =>
      intro j hj
      obtain ⟨j0, hj0, rfl⟩ := List.mem_map.mp hj
      by_cases hc : j0.collector_id = cid ∧ j0.status = JobStatus.running
      · cases ok
        · simp only [hc, if_pos, Bool.false_eq_true, if_false]
          exact jobInv_finishFailure cfg now j0 (ih j0 hj0) hc.2
        · simp only [hc, if_pos, if_true]
          exact jobInv_finishSuccess now j0 (ih j0 hj0) hc.2
      · simpa [hc] using ih j0 hj0

/-- C7: in every Scheduler state reachable from a correctly initialized
registry there is at most one in-flight run per Collector, and
`run_due_jobs` never launches a due job whose previous invocation has not
completed — it only records the skip as `skipped_overlap`, leaving the
status, the in-flight run and the schedule untouched. -/
theorem C7_scheduler_at_most_one_inflight_run :
    ∀ (cfg : BackoffConfig) (init js : List CollectionJob),
      initialJobs init → SchedReachable cfg init js →
      (∀ j ∈ js, j.inflight ≤ 1) ∧
      (∀ (now : Nat) (j : CollectionJob), j ∈ js →
        j.status = JobStatus.running → j.next_run_at ≤ now →
        stepJob now j = { j with skipped_overlap := j.skipped_overlap + 1 }) := by
  intro cfg init js hinit hreach
  constructor
  · intro j hj
    have h := reachable_jobInv cfg init hinit js hreach j hj
    unfold jobInv at h
    by_cases hrun : j.status = JobStatus.running <;> simp [hrun] at h <;> omega
  · intro now j _ hrun hdue
    unfold stepJob
    simp [hdue, hrun]

/-- C7 witness: one registered job, a tick making it due and running,
then a later tick while it is still running: the in-flight count stays at
1 and the overlapping tick only bumps `skipped_overlap`. -/
theorem C7_scheduler_at_most_one_inflight_run_witness :
    (∀ j ∈ runDueJobs 5 [⟨"market", 60, 0, .idle, 0, 0, 0⟩], j.inflight ≤ 1) ∧
    stepJob 7 ⟨"market", 60, 0, .running, 1, 0, 0⟩ =
      ⟨"market", 60, 0, .running, 1, 1, 0⟩ := by
  have h := C7_scheduler_at_most_one_inflight_run ⟨30, 3600, 5⟩
    [⟨"market", 60, 0, .idle, 0, 0, 0⟩]
    (runDueJobs 5 [⟨"market", 60, 0, .idle, 0, 0, 0⟩])
    (by unfold initialJobs; decide)
    (SchedReachable.step SchedReachable.refl (SchedStep.tick 5 _))
  refine ⟨h.1, ?_⟩
  have h2 := h.2 7 ⟨"market", 60, 0, .running, 1, 0, 0⟩ (by decide) rfl (by decide)
  simpa using h2

/-! ### Scheduler retry backoff (C8) -/

/-- C8: after a failed run the next attempt is delayed by the base delay
times `2 ^ consecutive_failures`, capped at the maximum delay, while the
failure count is within the retry cap; once the cap is exceeded the job
goes back to its normal cadence; and in either case the failure is
surfaced — the job stays marked `failed` with its failure count
incremented, never dropped from the registry (`completeJob` maps the
registry, removing nothing). -/
theorem C8_scheduler_retry_backoff :
    ∀ (cfg : BackoffConfig) (now : Nat) (j : CollectionJob),
      (∀ cf, backoffDelay cfg cf ≤ cfg.maxDelay ∧
        (cfg.base * 2 ^ cf ≤ cfg.maxDelay →
          backoffDelay cfg cf = cfg.base * 2 ^ cf)) ∧
      (finishFailure cfg now j).consecutive_failures =
        j.consecutive_failures + 1 ∧
      (finishFailure cfg now j).status = JobStatus.failed ∧
      (j.consecutive_failures + 1 ≤ cfg.maxRetries →
        (finishFailure cfg now j).next_run_at =
          now + backoffDelay cfg j.consecutive_failures) ∧
      (cfg.maxRetries < j.consecutive_failures + 1 →
        (finishFailure cfg now j).next_run_at = now + j.interval) ∧
      (∀ (cid : String) (ok : Bool) (js : List CollectionJob),
        (completeJob cfg now cid ok js).length = js.length) := by
  intro cfg now j
  refine ⟨?_, rfl, rfl, ?_, ?_, ?_⟩
  · intro cf
    constructor
    · unfold backoffDelay
      omega
    · intro h
      unfold backoffDelay
      omega
  · intro h
    unfold finishFailure nextRetryAt
    simp [h]
  · intro h
    unfold finishFailure nextRetryAt
    rw [if_neg (by omega)]
  · intro cid ok js
    unfold completeJob
    exact List.length_map js _

/-- C8 witness: base 30, cap 120, max 3 retries.  The second failure of a
job is retried after `30 · 2 ^ 1 = 60`; a fourth failure is past the cap
and reverts to the 600-tick cadence while the job stays `failed`. -/
theorem C8_scheduler_retry_backoff_witness :
    backoffDelay ⟨30, 120, 3⟩ 1 = 30 * 2 ^ 1 ∧
    (finishFailure ⟨30, 120, 3⟩ 1000 ⟨"m", 600, 0, .running, 1, 0, 1⟩).next_run_at =
      1000 + backoffDelay ⟨30, 120, 3⟩ 1 ∧
    (finishFailure ⟨30, 120, 3⟩ 1000 ⟨"m", 600, 0, .running, 1, 0, 3⟩).next_run_at =
      1000 + 600 ∧
    (finishFailure ⟨30, 120, 3⟩ 1000 ⟨"m", 600, 0, .running, 1, 0, 3⟩).status =
      JobStatus.failed := by
  have h1 := C8_scheduler_retry_backoff ⟨30, 120, 3⟩ 1000
    ⟨"m", 600, 0, .running, 1, 0, 1⟩
  have h3 := C8_scheduler_retry_backoff ⟨30, 120, 3⟩ 1000
    ⟨"m", 600, 0, .running, 1, 0, 3⟩
  refine ⟨(h1.1 1).2 (by decide), h1.2.2.2.1 (by decide), ?_, h3.2.2.1⟩
  have := h3.2.2.2.2.1 (by decide)
  simpa using this

/-! ### Collector idempotence (C5) -/

theorem storeGet_key {s : List CanonicalRecord} {k : String}
    {q : CanonicalRecord} (h : storeGet s k = some q) : q.entity_key = k := by
  unfold storeGet at h
  have := List.find?_some h
  simpa using this

theorem storeGet_upsert_ne (s : List CanonicalRecord) (r : CanonicalRecord)
    {k : String} (h : ¬ r.entity_key = k) :
    storeGet (upsert s r) k = storeGet s k := by
  rw [storeGet_upsert, if_neg h]

theorem nextVersion_gt {s : List CanonicalRecord} {k : String}
    {q : CanonicalRecord} (h : storeGet s k = some q) :
    q.version < nextVersion s k := by
  unfold nextVersion versionOf
  rw [h]
  simp

theorem storeGet_upsert_fresh (s : List CanonicalRecord) (r : CanonicalRecord)
    (hgt : ∀ q, storeGet s r.entity_key = some q → q.version < r.version) :
    storeGet (upsert s r) r.entity_key = some r := by
  rw [storeGet_upsert, if_pos rfl]
  cases h : storeGet s r.entity_key with
  | none => rfl
  | some q => simp [hgt q h]

theorem freshRecord_key (cfg : CollectorConfig) (nor up : String → String)
    (now : Nat) (s : List CanonicalRecord) (t : String) :
    (freshRecord cfg nor up now s t).entity_key = t := rfl

theorem goodAt_collectTarget (cfg : CollectorConfig) (nor up : String → String)
    (now : Nat) (s : List CanonicalRecord) (t : String) :
    goodAt cfg nor up (collectTarget cfg nor up now s t) t := by
  refine ⟨freshRecord cfg nor up now s t, ?_, rfl, rfl, rfl⟩
  unfold collectTarget
  have := storeGet_upsert_fresh s (freshRecord cfg nor up now s t)
    (fun q hq => nextVersion_gt hq)
  simpa [freshRecord_key] using this

theorem goodAt_collectTarget_pres (cfg : CollectorConfig)
    (nor up : String → String) (now : Nat) (s : List CanonicalRecord)
    {t : String} (t2 : String) (h : goodAt cfg nor up s t) :
    goodAt cfg nor up (collectTarget cfg nor up now s t2) t := by
  by_cases ht : t2 = t
  · subst ht
    exact goodAt_collectTarget cfg nor up now s t2
  · obtain ⟨q, hq, h1, h2, h3⟩ := h
    refine ⟨q, ?_, h1, h2, h3⟩
    unfold collectTarget
    rw [storeGet_upsert_ne s _ (by simpa [freshRecord_key] using ht)]
    exact hq

theorem goodAt_collectRun_pres (cfg : CollectorConfig)
    (nor up : String → String) (now : Nat) {t : String} :
    ∀ (targets : List String) (s : List CanonicalRecord),
      goodAt cfg nor up s t → goodAt cfg nor up (collectRun cfg nor up now s targets) t := by
  intro targets
  induction targets with
  | nil =>
    intro s h
    exact h
  | cons t0 ts ih =>
    intro s h
    exact ih (collectTarget cfg nor up now s t0)
      (goodAt_collectTarget_pres cfg nor up now s t0 h)

theorem collectRun_goodAt (cfg : CollectorConfig) (nor up : String → String)
    (now : Nat) :
    ∀ (targets : List String) (s : List CanonicalRecord) (t : String),
      t ∈ targets → goodAt cfg nor up (collectRun cfg nor up now s targets) t := by
  intro targets
  induction targets with
  | nil =>
    intro s t ht
    cases ht
  | cons t0 ts ih =>
    intro s t ht
    rcases List.mem_cons.mp ht with h0 | h0
    · subst h0
      exact goodAt_collectRun_pres cfg nor up now ts _
        (goodAt_collectTarget cfg nor up now s t)
    · exact ih (collectTarget cfg nor up now s t0) t h0

theorem map_dropMeta_upsert {s : List CanonicalRecord} {r q : CanonicalRecord}
    (hq : storeGet s r.entity_key = some q) (hdm : dropMeta r = dropMeta q) :
    (upsert s r).map dropMeta = s.map dropMeta := by
  induction s with
  | nil => simp [storeGet] at hq
  | cons a s ih =>
    by_cases hak : a.entity_key = r.entity_key
    · have ha : storeGet (a :: s) r.entity_key = some a := storeGet_cons_pos hak
      rw [hq] at ha
      have hqa : q = a := by injection ha
      subst hqa
      by_cases hv : q.version < r.version
      · simp only [upsert, if_pos hak, if_pos hv, List.map_cons, hdm]
      · simp only [upsert, if_pos hak, if_neg hv]
    · have ha : storeGet (a :: s) r.entity_key = storeGet s r.entity_key :=
        storeGet_cons_neg hak
      rw [ha] at hq
      simp only [upsert, if_neg hak, List.map_cons]
      rw [ih hq]

theorem map_dropMeta_collectRun (cfg : CollectorConfig)
    (nor up : String → String) (now : Nat) :
    ∀ (targets : List String) (s : List CanonicalRecord),
      (∀ t ∈ targets, goodAt cfg nor up s t) →
      (collectRun cfg nor up now s targets).map dropMeta = s.map dropMeta := by
  intro targets
  induction targets with
  | nil =>
    intro s _
    rfl
  | cons t ts ih =>
    intro s H
    obtain ⟨q, hq, h1, h2, h3⟩ := H t (List.mem_cons_self t ts)
    have hkey : q.entity_key = t := storeGet_key hq
    have hdm : dropMeta (freshRecord cfg nor up now s t) = dropMeta q := by
      unfold dropMeta freshRecord
      rw [h1, h2, h3, hkey]
    have hstep : (collectTarget cfg nor up now s t).map dropMeta = s.map dropMeta := by
      unfold collectTarget
      exact map_dropMeta_upsert (by simpa [freshRecord_key] using hq) hdm
    have hinv : ∀ t2 ∈ ts, goodAt cfg nor up (collectTarget cfg nor up now s t) t2 :=
      fun t2 ht2 => goodAt_collectTarget_pres cfg nor up now s t
        (H t2 (List.mem_cons_of_mem t ht2))
    calc (collectRun cfg nor up now s (t :: ts)).map dropMeta
        = (collectRun cfg nor up now (collectTarget cfg nor up now s t) ts).map dropMeta := rfl
      _ = (collectTarget cfg nor up now s t).map dropMeta := ih _ hinv
      _ = s.map dropMeta := hstep

theorem storeKeys_of_dropMeta (s : List CanonicalRecord) :
    storeKeys s = (s.map dropMeta).map (fun x => x.2.1) := by
  unfold storeKeys
  rw [List.map_map]
  rfl

theorem storeKeys_cons (a : CanonicalRecord) (s : List CanonicalRecord) :
    storeKeys (a :: s) = a.entity_key :: storeKeys s := rfl

theorem storeKeys_upsert (s : List CanonicalRecord) (r : CanonicalRecord) :
    storeKeys (upsert s r) =
      if r.entity_key ∈ storeKeys s then storeKeys s
      else storeKeys s ++ [r.entity_key] := by
  induction s with
  | nil => simp [upsert, storeKeys]
  | cons a s ih =>
    by_cases hak : a.entity_key = r.entity_key
    · have hmem : r.entity_key ∈ storeKeys (a :: s) := by
        rw [storeKeys_cons, ← hak]
        exact List.mem_cons_self _ _
      rw [if_pos hmem]
      by_cases hv : a.version < r.version
      · simp only [upsert, if_pos hak, if_pos hv]
        rw [storeKeys_cons, storeKeys_cons, hak]
      · simp only [upsert, if_pos hak, if_neg hv]
    · have hcons : (r.entity_key ∈ storeKeys (a :: s)) ↔
          r.entity_key ∈ storeKeys s := by
        rw [storeKeys_cons]
        constructor
        · intro h0
          rcases List.mem_cons.mp h0 with h1 | h1
          · exact absurd h1.symm hak
          · exact h1
        · intro h0
          exact List.mem_cons_of_mem _ h0
      simp only [upsert, if_neg hak]
      rw [storeKeys_cons]
      by_cases hmem : r.entity_key ∈ storeKeys s
      · rw [if_pos (hcons.mpr hmem), ih, if_pos hmem, storeKeys_cons]
      · rw [if_neg (fun h => hmem (hcons.mp h)), ih, if_neg hmem, storeKeys_cons,
          List.cons_append]

theorem nodupKeys_upsert {s : List CanonicalRecord} (r : CanonicalRecord)
    (h : nodupKeys s) : nodupKeys (upsert s r) := by
  unfold nodupKeys at *
  rw [storeKeys_upsert]
  by_cases hmem : r.entity_key ∈ storeKeys s
  · rw [if_pos hmem]
    exact h
  · rw [if_neg hmem]
    simp [List.nodup_append, h, hmem]

theorem nodupKeys_collectRun (cfg : CollectorConfig)
    (nor up : String → String) (now : Nat) :
    ∀ (targets : List String) (s : List CanonicalRecord),
      nodupKeys s → nodupKeys (collectRun cfg nor up now s targets) := by
  intro targets
  induction targets with
  | nil =>
    intro s h
    exact h
  | cons t ts ih =>
    intro s h
    exact ih (collectTarget cfg nor up now s t) (nodupKeys_upsert _ h)

/-- C5: re-running `collect` over the same targets against an unchanged
upstream response leaves every stored field except `collected_at` and
`version` unchanged (the stores agree after dropping those two fields),
keeps exactly the same set of entity keys, and — upsert being keyed by
`entity_key` — never introduces a duplicate record for an existing
key. -/
theorem C5_collect_rerun_idempotent :
    ∀ (cfg : CollectorConfig) (nor up : String → String) (now1 now2 : Nat)
      (s : List CanonicalRecord) (targets : List String),
      ((collectRun cfg nor up now2 (collectRun cfg nor up now1 s targets) targets).map dropMeta =
        (collectRun cfg nor up now1 s targets).map dropMeta) ∧
      (storeKeys (collectRun cfg nor up now2 (collectRun cfg nor up now1 s targets) targets) =
        storeKeys (collectRun cfg nor up now1 s targets)) ∧
      (nodupKeys s → nodupKeys (collectRun cfg nor up now1 s targets)) := by
  intro cfg nor up now1 now2 s targets
  have hgood : ∀ t ∈ targets,
      goodAt cfg nor up (collectRun cfg nor up now1 s targets) t :=
    fun t ht => collectRun_goodAt cfg nor up now1 targets s t ht
  have hmap := map_dropMeta_collectRun cfg nor up now2 targets
    (collectRun cfg nor up now1 s targets) hgood
  refine ⟨hmap, ?_, nodupKeys_collectRun cfg nor up now1 targets s⟩
  rw [storeKeys_of_dropMeta, storeKeys_of_dropMeta, hmap]

/-- C5 witness: collecting ["AAPL", "MSFT"] twice into an empty store
with an unchanged upstream: the second run preserves all non-meta fields
and the key set, and key uniqueness holds after the first run. -/
theorem C5_collect_rerun_idempotent_witness :
    ((collectRun ⟨"stock_price", "yf"⟩ (fun raw => raw) (fun t => "raw-" ++ t) 20
        (collectRun ⟨"stock_price", "yf"⟩ (fun raw => raw) (fun t => "raw-" ++ t) 10
          [] ["AAPL", "MSFT"]) ["AAPL", "MSFT"]).map dropMeta =
      (collectRun ⟨"stock_price", "yf"⟩ (fun raw => raw) (fun t => "raw-" ++ t) 10
        [] ["AAPL", "MSFT"]).map dropMeta) ∧
    nodupKeys (collectRun ⟨"stock_price", "yf"⟩ (fun raw => raw)
      (fun t => "raw-" ++ t) 10 [] ["AAPL", "MSFT"]) := by
  have h := C5_collect_rerun_idempotent ⟨"stock_price", "yf"⟩ (fun raw => raw)
    (fun t => "raw-" ++ t) 10 20 [] ["AAPL", "MSFT"]
  exact ⟨h.1, h.2.2 (by unfold nodupKeys; decide)⟩

/-! ### Dashboard aggregate summary (C9) -/

theorem jsOrZero_finite {x : Option JsNum} (h : finiteOrNull x = true) :
    jsOrZero x = .num (ratOrZero x) := by
  cases x with
  | none => simp [jsOrZero, ratOrZero]
  | some v =>
    cases v with
    | num q =>
      by_cases hq : q = 0
      · simp [jsOrZero, JsNum.truthy, hq, ratOrZero]
      · simp [jsOrZero, JsNum.truthy, hq, ratOrZero]
    | nan => simp [finiteOrNull, JsNum.isFinite] at h
    | inf => simp [finiteOrNull, JsNum.isFinite] at h
    | ninf => simp [finiteOrNull, JsNum.isFinite] at h

theorem foldl_add_orZero (f : Portfolio → Option JsNum) (ps : List Portfolio)
    (h : ∀ p ∈ ps, finiteOrNull (f p) = true) :
    ∀ a : Rat,
      ps.foldl (fun (acc : JsNum) (p : Portfolio) => acc.add (jsOrZero (f p)))
          (JsNum.num a) =
        JsNum.num (a + (ps.map fun p => ratOrZero (f p)).sum) := by
  induction ps with
  | nil =>
    intro a
    simp
  | cons p ps ih =>
    intro a
    rw [List.foldl_cons, jsOrZero_finite (h p (List.mem_cons_self p ps))]
    rw [show JsNum.add (.num a) (.num (ratOrZero (f p))) =
      .num (a + ratOrZero (f p)) from rfl]
    rw [ih (fun p2 hp2 => h p2 (List.mem_cons_of_mem p hp2))]
    rw [List.map_cons, List.sum_cons]
    exact congrArg JsNum.num (by ring)

/-- C9: for a nonempty portfolio list of JSON-representable data, the
dashboard's aggregate is exactly the component-wise sum of `total_value`,
`total_cost`, `total_gain_loss` and `cash_balance`, a missing or null
field contributing 0; for an absent or empty list the aggregate is null
and the "No portfolios found" state renders instead. -/
theorem C9_home_aggregate_componentwise_sum :
    (∀ ps : List Portfolio, ps ≠ [] → (∀ p ∈ ps, portfolioFinite p = true) →
      aggregatePortfolios (some ps) = some (componentSums ps) ∧
      renderHome (some ps) = .dashboard (componentSums ps)) ∧
    (aggregatePortfolios none = none ∧ aggregatePortfolios (some []) = none ∧
      renderHome none = .noPortfolios ∧ renderHome (some []) = .noPortfolios) := by
  constructor
  · intro ps hne hfin
    have hlen : 0 < ps.length := List.length_pos.mpr hne
    have hbits : ∀ p ∈ ps, finiteOrNull p.total_value = true ∧
        finiteOrNull p.total_cost = true ∧
        finiteOrNull p.total_gain_loss = true ∧
        finiteOrNull p.cash_balance = true := by
      intro p hp
      have := hfin p hp
      unfold portfolioFinite at this
      simp [Bool.and_eq_true] at this
      tauto
    have hagg : aggregatePortfolios (some ps) = some (componentSums ps) := by
      simp only [aggregatePortfolios]
      rw [if_pos hlen]
      unfold componentSums
      congr 1
      congr 1
      · rw [foldl_add_orZero (fun p => p.total_value) ps
          (fun p hp => (hbits p hp).1) 0]
        rw [zero_add]
      · rw [foldl_add_orZero (fun p => p.total_cost) ps
          (fun p hp => (hbits p hp).2.1) 0]
        rw [zero_add]
      · rw [foldl_add_orZero (fun p => p.total_gain_loss) ps
          (fun p hp => (hbits p hp).2.2.1) 0]
        rw [zero_add]
      · rw [foldl_add_orZero (fun p => p.cash_balance) ps
          (fun p hp => (hbits p hp).2.2.2) 0]
        rw [zero_add]
    refine ⟨hagg, ?_⟩
    unfold renderHome
    rw [hagg]
  · exact ⟨rfl, rfl, rfl, rfl⟩

/-- C9 witness: two finite-or-null portfolios aggregate to the
component-wise sums and render as the dashboard; a null or empty list
renders the no-portfolio state. -/
theorem C9_home_aggregate_componentwise_sum_witness :
    (aggregatePortfolios (some [aggSampleA, aggSampleB]) =
      some (componentSums [aggSampleA, aggSampleB]) ∧
      renderHome (some [aggSampleA, aggSampleB]) =
        .dashboard (componentSums [aggSampleA, aggSampleB])) ∧
    renderHome none = .noPortfolios ∧ renderHome (some []) = .noPortfolios := by
  have h := C9_home_aggregate_componentwise_sum
  exact ⟨h.1 [aggSampleA, aggSampleB] (by decide)
    (by unfold aggSampleA aggSampleB; decide),
    h.2.2.2.1, h.2.2.2.2⟩

/-! ### Percentage rendering guards (C10) -/

theorem jsField_finite {x : Option JsNum} (h : finiteOrNull x = true) :
    ∃ c : Rat, jsField x = .num c := by
  cases x with
  | none => exact ⟨0, rfl⟩
  | some v =>
    cases v with
    | num q => exact ⟨q, rfl⟩
    | nan => simp [finiteOrNull, JsNum.isFinite] at h
    | inf => simp [finiteOrNull, JsNum.isFinite] at h
    | ninf => simp [finiteOrNull, JsNum.isFinite] at h

theorem gt_zero_num {c : Rat} (h : (JsNum.num c).gt (.num 0) = true) : 0 < c := by
  simpa [JsNum.gt, JsNum.lt] using h

theorem JsNum.div_num {a b : Rat} (hb : b ≠ 0) :
    (JsNum.num a).div (.num b) = .num (a / b) := by
  simp [JsNum.div, hb]

/-- C10: the percentage figures of the portfolio views divide by
`total_cost` only behind the positive-cost guard.  `PortfolioOverview`
(part_000), on JSON-representable data, renders "0%" whenever the guard
fails and otherwise a fixed-point rendering of a finite rational — never
`NaN` or `Infinity`.  `Home` (part_003) renders "N/A" (and an empty
percent slot) whenever its guard fails, and otherwise a signed
fixed-point rendering of a finite rational, for every input whatsoever. -/
theorem C10_percentages_guarded_never_nan :
    (∀ p : Portfolio, portfolioFinite p = true →
      ((jsField p.total_cost).gt (.num 0) = false →
        overviewGainLossChange p = "0%") ∧
      (overviewGainLossChange p = "0%" ∨
        ∃ q : Rat, overviewGainLossChange p = ratToFixed 2 q ++ "%")) ∧
    (∀ agg : PortfolioSummary,
      (homeCostGuard agg = false →
        homeTotalReturnChange agg = "N/A" ∧ homeTotalValuePercent agg = "") ∧
      (homeTotalReturnChange agg = "N/A" ∨
        ∃ q : Rat, homeTotalReturnChange agg =
          (if 0 ≤ q then "+" else "") ++ ratToFixed 2 q ++ "%")) := by
  constructor
  · intro p hfin
    have hbits : finiteOrNull p.total_cost = true ∧
        finiteOrNull p.total_gain_loss = true := by
      unfold portfolioFinite at hfin
      simp [Bool.and_eq_true] at hfin
      tauto
    constructor
    · intro hguard
      unfold overviewGainLossChange
      simp [hguard]
    · cases hguard : (jsField p.total_cost).gt (.num 0) with
      | false =>
        left
        unfold overviewGainLossChange
        simp [hguard]
      | true =>
        right
        obtain ⟨c, hc⟩ := jsField_finite hbits.1
        obtain ⟨g, hg⟩ := jsField_finite hbits.2
        have hcpos : 0 < c := gt_zero_num (hc ▸ hguard)
        have hcne : c ≠ 0 := ne_of_gt hcpos
        refine ⟨g / c * 100, ?_⟩
        simp only [overviewGainLossChange, hc, hg, hc ▸ hguard, if_true,
          JsNum.div_num hcne]
        rfl
  · intro agg
    obtain ⟨tv, tc, tg, cb⟩ := agg
    constructor
    · intro hguard
      unfold homeTotalReturnChange homeTotalValuePercent
      simp [hguard]
    · cases hguard : homeCostGuard ⟨tv, tc, tg, cb⟩ with
      | false =>
        left
        unfold homeTotalReturnChange
        simp [hguard]
      | true =>
        right
        have hparts : isValidNumber tc = true ∧ tc.gt (.num 0) = true := by
          simpa [homeCostGuard, Bool.and_eq_true] using hguard
        obtain ⟨c, rfl⟩ : ∃ c : Rat, tc = .num c := by
          cases tc with
          | num q => exact ⟨q, rfl⟩
          | nan => simp [isValidNumber, JsNum.isFinite] at hparts
          | inf => simp [isValidNumber, JsNum.isFinite] at hparts
          | ninf => simp [isValidNumber, JsNum.isFinite] at hparts
        have hcpos : 0 < c := gt_zero_num hparts.2
        have hcne : c ≠ 0 := ne_of_gt hcpos
        cases tg with
        | num g =>
          refine ⟨g / c * 100, ?_⟩
          simp only [homeTotalReturnChange, hguard, if_true,
            homeReturnPercentFormatted, homeReturnPercent]
          rw [show safePercentage (.num g) (.num c) 0 = .num (g / c * 100) by
            simp [safePercentage, isValidNumber, JsNum.isFinite, hcne,
              JsNum.div_num hcne]
            rfl]
          rfl
        | nan =>
          refine ⟨0, ?_⟩
          simp only [homeTotalReturnChange, hguard, if_true,
            homeReturnPercentFormatted, homeReturnPercent]
          rw [show safePercentage JsNum.nan (.num c) 0 = .num 0 by
            simp [safePercentage, isValidNumber, JsNum.isFinite]]
          rfl
        | inf =>
          refine ⟨0, ?_⟩
          simp only [homeTotalReturnChange, hguard, if_true,
            homeReturnPercentFormatted, homeReturnPercent]
          rw [show safePercentage JsNum.inf (.num c) 0 = .num 0 by
            simp [safePercentage, isValidNumber, JsNum.isFinite]]
          rfl
        | ninf =>
          refine ⟨0, ?_⟩
          simp only [homeTotalReturnChange, hguard, if_true,
            homeReturnPercentFormatted, homeReturnPercent]
          rw [show safePercentage JsNum.ninf (.num c) 0 = .num 0 by
            simp [safePercentage, isValidNumber, JsNum.isFinite]]
          rfl

/-- C10 witness: a finite portfolio exercises the guarded branch of
`PortfolioOverview`, and the zero-cost summary exercises the `Home`
fallback. -/
theorem C10_percentages_guarded_never_nan_witness :
    (((jsField overviewSample.total_cost).gt (.num 0) = false →
        overviewGainLossChange overviewSample = "0%") ∧
      (overviewGainLossChange overviewSample = "0%" ∨
        ∃ q : Rat, overviewGainLossChange overviewSample = ratToFixed 2 q ++ "%")) ∧
    ((homeCostGuard homeSample = false →
        homeTotalReturnChange homeSample = "N/A" ∧
        homeTotalValuePercent homeSample = "") ∧
      (homeTotalReturnChange homeSample = "N/A" ∨
        ∃ q : Rat, homeTotalReturnChange homeSample =
          (if 0 ≤ q then "+" else "") ++ ratToFixed 2 q ++ "%")) :=
  ⟨C10_percentages_guarded_never_nan.1 overviewSample
      (by unfold overviewSample; decide),
   C10_percentages_guarded_never_nan.2 homeSample⟩

end FinDash
